import Mathlib

/-!
Verification development for `update_changelog.py`, a script that rewrites the
"unreleased" section of a Keep-a-Changelog file from a pre-commit.ci pull
request body.  The Python source is shallowly embedded below: Python `dict`s
become association lists preserving insertion order (updates keep the key's
position, fresh keys are appended), Python `re.match` becomes a small
backtracking regular-expression interpreter over `List Char` with the script's
two regular expressions transcribed as syntax trees, and the fallible parts
(`[-1]` on an empty list, `next` on an empty generator, missing dict keys)
return `Option`.
-/

namespace UpdateChangelog

/-! ## Python string primitives -/

/-- Characters treated as whitespace by Python's `str.strip` and `\s`
(ASCII range, which covers every string this script manipulates). -/
def isPySpace (c : Char) : Bool :=
  c = ' ' || c = '\t' || c = '\n' || c = '\r' || c = '\x0b' || c = '\x0c'

/-- Python `str.strip()`. -/
def pyStrip (s : String) : String :=
  String.mk (((s.toList.dropWhile isPySpace).reverse.dropWhile isPySpace).reverse)

/-- Python `str.lower()` on the ASCII range (`Char.toLower` lowers exactly
the ASCII uppercase letters, as CPython does for ASCII text). -/
def pyLower (s : String) : String :=
  String.mk (s.toList.map Char.toLower)

/-- Helper for `splitlines`: accumulate the current line (reversed). -/
def splitlinesAux : List Char → List Char → List String
  | [], acc => if acc.isEmpty then [] else [String.mk acc.reverse]
  | '\r' :: '\n' :: rest, acc => String.mk acc.reverse :: splitlinesAux rest []
  | '\n' :: rest, acc => String.mk acc.reverse :: splitlinesAux rest []
  | '\r' :: rest, acc => String.mk acc.reverse :: splitlinesAux rest []
  | c :: rest, acc => splitlinesAux rest (c :: acc)

/-- Python `str.splitlines()` restricted to the `\n`, `\r`, `\r\n` line
terminators (no trailing empty line). -/
def splitlines (s : String) : List String :=
  splitlinesAux s.toList []

/-- Whether `n` is a leading slice of `h` (helper for the substring test). -/
def listStarts : List Char → List Char → Bool
  | [], _ => true
  | _ :: _, [] => false
  | a :: as, b :: bs => a = b && listStarts as bs

/-- Whether `n` occurs contiguously inside `h`. -/
def listHasSub (n : List Char) : List Char → Bool
  | [] => n.isEmpty
  | c :: rest => listStarts n (c :: rest) || listHasSub n rest

/-- Python's `needle in hay` substring test. -/
def strHasSub (needle hay : String) : Bool :=
  listHasSub needle.toList hay.toList

/-- Python `startswith` for a single one-character candidate. -/
def strStartsChar (s : String) (c : Char) : Bool :=
  match s.toList with
  | [] => false
  | d :: _ => d = c

/-- Lexicographic `≤` on character lists by code point, as Python compares
strings. -/
def listLe : List Char → List Char → Bool
  | [], _ => true
  | _ :: _, [] => false
  | a :: as, b :: bs => if a = b then listLe as bs else decide (a < b)

/-- Lexicographic `<` on character lists by code point. -/
def listLt : List Char → List Char → Bool
  | [], [] => false
  | [], _ :: _ => true
  | _ :: _, [] => false
  | a :: as, b :: bs => if a = b then listLt as bs else decide (a < b)

/-! ## Python dictionaries as insertion-ordered association lists -/

/-- Python `d[k] = v`: update the value in place if the key exists,
otherwise append the fresh key at the end. -/
def dictSet {β : Type} : List (String × β) → String → β → List (String × β)
  | [], k, v => [(k, v)]
  | (k1, v1) :: rest, k, v =>
    if k1 = k then (k, v) :: rest else (k1, v1) :: dictSet rest k v

/-- Python `d.get(k)` / `d[k]` (as an `Option`). -/
def dictLookup {β : Type} : List (String × β) → String → Option β
  | [], _ => none
  | (k1, v1) :: rest, k => if k1 = k then some v1 else dictLookup rest k

/-- The keys of the dictionary, in iteration order. -/
def dictKeys {β : Type} (d : List (String × β)) : List String :=
  d.map Prod.fst

/-- Left-biased choice on `Option`. -/
def oor {β : Type} (a b : Option β) : Option β :=
  match a with
  | some x => some x
  | none => b

/-! ## A backtracking regular-expression interpreter (Python `re` semantics:
leftmost match, greedy quantifiers, numbered capture groups, `\b`). -/

/-- Syntax of the fragment of Python regular expressions the script uses. -/
inductive Regex where
  | eps : Regex
  | cls : (Char → Bool) → Regex
  | seq : Regex → Regex → Regex
  | alt : Regex → Regex → Regex
  | star : Regex → Regex
  | rep : Nat → Nat → Regex → Regex
  | group : Nat → Regex → Regex
  | wb : Regex

/-- Python `\w`: ASCII letters, digits and underscore. -/
def isWordChar (c : Char) : Bool :=
  c.isAlphanum || c = '_'

/-- Word-character test on the character left of the current position. -/
def isWordB : Option Char → Bool
  | none => false
  | some c => isWordChar c

/-- Word-character test on the character at the current position. -/
def headIsWord : List Char → Bool
  | [] => false
  | c :: _ => isWordChar c

/-- Backtracking matcher in continuation-passing style.  `prev` is the
character preceding the current position (for `\b`), `caps` the captures
recorded so far, and `k` the continuation for the rest of the pattern.
The fuel bounds the recursion depth and is chosen large enough that it is
never exhausted on the inputs considered here. -/
def mrun : Nat → Regex → Option Char → List Char → List (Nat × String) →
    (Option Char → List Char → List (Nat × String) → Option (List (Nat × String))) →
    Option (List (Nat × String))
  | 0, _, _, _, _, _ => none
  | fuel + 1, r, prev, s, caps, k =>
    match r with
    | .eps => k prev s caps
    | .cls p =>
      match s with
      | [] => none
      | c :: rest => if p c then k (some c) rest caps else none
    | .seq a b =>
      mrun fuel a prev s caps fun p1 s1 c1 => mrun fuel b p1 s1 c1 k
    | .alt a b =>
      match mrun fuel a prev s caps k with
      | some res => some res
      | none => mrun fuel b prev s caps k
    | .star a =>
      match mrun fuel a prev s caps (fun p1 s1 c1 =>
          if s1.length < s.length then mrun fuel (.star a) p1 s1 c1 k else none) with
      | some res => some res
      | none => k prev s caps
    | .rep lo hi a =>
      if hi = 0 then (if lo = 0 then k prev s caps else none)
      else
        match mrun fuel a prev s caps (fun p1 s1 c1 =>
            mrun fuel (.rep (lo - 1) (hi - 1) a) p1 s1 c1 k) with
        | some res => some res
        | none => if lo = 0 then k prev s caps else none
    | .group n a =>
      mrun fuel a prev s caps fun p1 s1 c1 =>
        k p1 s1 ((n, String.mk (s.take (s.length - s1.length))) :: c1)
    | .wb =>
      if isWordB prev = headIsWord s then none else k prev s caps

/-- Fuel that comfortably dominates the recursion depth on the short lines
this script matches. -/
def reFuel (s : List Char) : Nat :=
  (s.length + 8) * 2000

/-- Python `re.match(r, s)`: anchored at the start, the tail of the string
need not be consumed.  Returns the recorded captures on success. -/
def reMatch (r : Regex) (s : String) : Option (List (Nat × String)) :=
  mrun (reFuel s.toList) r none s.toList [] fun _ _ caps => some caps

/-- `m.group(n)`: the most recent text captured by group `n`. -/
def capGet : List (Nat × String) → Nat → Option String
  | [], _ => none
  | (m, s) :: rest, n => if m = n then some s else capGet rest n

/-! ## The script's regular expressions, transcribed -/

/-- A single literal character. -/
def rchar (c : Char) : Regex :=
  .cls fun d => d = c

/-- A literal string. -/
def rlit (s : String) : Regex :=
  s.toList.foldr (fun c r => Regex.seq (rchar c) r) .eps

/-- `r+`. -/
def rplus (r : Regex) : Regex :=
  .seq r (.star r)

/-- `r?` (greedy). -/
def ropt (r : Regex) : Regex :=
  .rep 0 1 r

/-- `\s`. -/
def wsp : Regex :=
  .cls isPySpace

/-- `[0-9]`. -/
def rdigit : Regex :=
  .cls Char.isDigit

/-- `.` (anything but a newline). -/
def dotAny : Regex :=
  .cls fun c => c ≠ '\n'

/-- `_version_regex = v?([0-9]+(?:\.[0-9]+){0,2})`, with `g` the number the
capture group receives once the fragment is spliced into a larger pattern. -/
def version_regex (g : Nat) : Regex :=
  .seq (ropt (rchar 'v'))
    (.group g (.seq (rplus rdigit) (.rep 0 2 (.seq (rchar '.') (rplus rdigit)))))

/-- The identifier characters of a hook name in the changelog: ASCII
letters, digits, underscore, hyphen and slash. -/
def hookNameChar (c : Char) : Bool :=
  c.isAlphanum || c = '_' || c = '-' || c = '/'

/-- The changelog line pattern: a dash, whitespace, the literal
`Update `, a backtick-quoted hook name (group 1), an optional ` hook`,
the literal ` to `, and the version fragment as group 2. -/
def hook_update_regex : Regex :=
  .seq (rchar '-') (.seq (rplus wsp) (.seq (rlit "Update `")
    (.seq (.group 1 (rplus (.cls hookNameChar)))
      (.seq (rlit "`") (.seq (ropt (rlit " hook"))
        (.seq (rlit " to ") (version_regex 2)))))))

/-- The outer pull-request checklist pattern `-\s+\[(.*)\].*`. -/
def pr_checklist_regex : Regex :=
  .seq (rchar '-') (.seq (rplus wsp) (.seq (rchar '[')
    (.seq (.group 1 (.star dotAny)) (.seq (rchar ']') (.star dotAny)))))

/-- First character class of `_url_regex`: `[-a-zA-Z0-9@:%._\+~#=]`. -/
def urlCharA (c : Char) : Bool :=
  c = '-' || c.isAlphanum || c = '@' || c = ':' || c = '%' || c = '.' ||
    c = '_' || c = '+' || c = '~' || c = '#' || c = '='

/-- Second character class of `_url_regex`: `[a-zA-Z0-9()]`. -/
def urlCharB (c : Char) : Bool :=
  c.isAlphanum || c = '(' || c = ')'

/-- Capture character class of `_url_regex`: `[-a-zA-Z0-9()@:%_\+.~#?&\/=]`. -/
def urlCharC (c : Char) : Bool :=
  c = '-' || c.isAlphanum || c = '(' || c = ')' || c = '@' || c = ':' ||
    c = '%' || c = '_' || c = '+' || c = '.' || c = '~' || c = '#' ||
    c = '?' || c = '&' || c = '/' || c = '='

/-- `_url_regex =
[-a-zA-Z0-9@:%._\+~#=]{1,256}\.[a-zA-Z0-9()]{1,6}/\b([-a-zA-Z0-9()@:%_\+.~#?&\/=]*)`. -/
def url_regex : Regex :=
  .seq (.rep 1 256 (.cls urlCharA)) (.seq (rchar '.') (.seq (.rep 1 6 (.cls urlCharB))
    (.seq (rchar '/') (.seq .wb (.group 1 (.star (.cls urlCharC)))))))

/-- The inner pull-request pattern
`{_url_regex}\s*:\s*{_version_regex}\s+→\s+{_version_regex}` (groups 1 to 3). -/
def pr_hook_regex : Regex :=
  .seq url_regex (.seq (.star wsp) (.seq (rchar ':') (.seq (.star wsp)
    (.seq (version_regex 2) (.seq (rplus wsp) (.seq (rchar '→')
      (.seq (rplus wsp) (version_regex 3))))))))

/-! ## Matching wrappers used by the parsers -/

/-- The `hook_match` of `parse_changelog`: the hook name (group 1) and the
recorded version (group 2) of a changelog update line. -/
def hook_update_match (item : String) : Option (String × String) :=
  match reMatch hook_update_regex item with
  | none => none
  | some caps =>
    match capGet caps 1, capGet caps 2 with
    | some name, some ver => some (name, ver)
    | _, _ => none

/-- The `hook_line` match of `parse_pull_request_body`: the bracketed label
of a checklist item (applied to the stripped line). -/
def pr_checklist_match (s : String) : Option String :=
  match reMatch pr_checklist_regex s with
  | none => none
  | some caps => capGet caps 1

/-- The `hook_match` of `parse_pull_request_body`: the dependency name
(group 1) and the new version (group 3); the old version (group 2) is
parsed but discarded. -/
def pr_hook_match (s : String) : Option (String × String) :=
  match reMatch pr_hook_regex s with
  | none => none
  | some caps =>
    match capGet caps 1, capGet caps 3 with
    | some name, some ver => some (name, ver)
    | _, _ => none

/-- The composed per-line extraction of `parse_pull_request_body`: strip the
line, match the checklist shape, then match the label. -/
def pr_line_match (line : String) : Option (String × String) :=
  match pr_checklist_match (pyStrip line) with
  | none => none
  | some label => pr_hook_match label

/-! ## The changelog data model (the dictionary `keepachangelog.to_dict`
returns: version key to metadata plus named content sections) -/

/-- The `metadata` sub-dictionary of a changelog entry.  The field name
`release_data` reproduces the literal key the script writes. -/
structure VersionMetadata where
  release_data : Option String
  url : String
  version : String
  deriving DecidableEq, Repr

/-- One changelog entry: metadata plus the named content sections. -/
structure ChangelogEntry where
  metadata : VersionMetadata
  sections : List (String × List String)
  deriving DecidableEq, Repr

/-- The parsed changelog: version key to entry, in file order. -/
abbrev Changelog := List (String × ChangelogEntry)

/-- Python `k in changelog`. -/
def clHasKey (cl : Changelog) (k : String) : Bool :=
  cl.any fun p => p.1 = k

/-! ## `clean_version_str` -/

/-- `version.startswith(('v', 'V'))`. -/
def startsVorV (version : String) : Bool :=
  strStartsChar version 'v' || strStartsChar version 'V'

/-- Python `s[1:]`. -/
def strTail (s : String) : String :=
  String.mk s.toList.tail

/-- `clean_version_str` from the script: drop a single leading `v`/`V`. -/
def clean_version_str (version : String) : String :=
  if startsVorV version then strTail version else version

/-! ## `get_changelog` -/

/-- Split a character list at the dots (helper for the semantic-version
key). -/
def splitDotsAux : List Char → List Char → List (List Char)
  | [], acc => [acc.reverse]
  | '.' :: rest, acc => acc.reverse :: splitDotsAux rest []
  | c :: rest, acc => splitDotsAux rest (c :: acc)

/-- Decimal value of a digit string. -/
def digitsToNat (l : List Char) : Nat :=
  l.foldl (fun n c => n * 10 + (c.toNat - 48)) 0

/-- The numeric triple of a (cleaned) version string, missing components
read as zero. -/
def semverKey (version : String) : Nat × Nat × Nat :=
  let parts := (splitDotsAux version.toList []).map digitsToNat
  (parts.getD 0 0, parts.getD 1 0, parts.getD 2 0)

/-- Semantic-version order on numeric triples. -/
def semLe : Nat × Nat × Nat → Nat × Nat × Nat → Bool
  | (a, b, c), (d, e, f) =>
    decide (a < d) ||
      (decide (a = d) && (decide (b < e) || (decide (b = e) && decide (c ≤ f))))

/-- Stable insertion of `x` into a list sorted by `le`: `x` goes after every
element already ordered no later than it. -/
def insortBy {α : Type} (le : α → α → Bool) (x : α) : List α → List α
  | [] => [x]
  | y :: ys => if le y x then y :: insortBy le x ys else x :: y :: ys

/-- Stable sort by repeated insertion (Python `sorted`). -/
def sortBy {α : Type} (le : α → α → Bool) (l : List α) : List α :=
  l.foldl (fun acc x => insortBy le x acc) []

/-- Modelled from the spec: `keepachangelog.to_sorted_semantic` is not part
of this repository; per the spec it sorts the given version strings in
semantic-version order, returning each string paired with its numeric key. -/
def to_sorted_semantic (versions : List String) : List (String × (Nat × Nat × Nat)) :=
  sortBy (fun p q => semLe p.2 q.2) (versions.map fun v => (v, semverKey v))

/-- The version strings of the parsed changelog whose metadata version is
not `unreleased` (line 55 of the script). -/
def changelogVersions (cl : Changelog) : List String :=
  (cl.filter fun p => p.2.metadata.version ≠ "unreleased").map
    fun p => p.2.metadata.version

/-- The synthesized `unreleased` entry (lines 59 to 68 of the script). -/
def unreleasedEntry (version_name : String) : ChangelogEntry :=
  { metadata :=
      { release_data := none
        url := "https://github.com/Takishima/flake8-secure-coding-standard/compare/"
            ++ version_name ++ "...HEAD"
        version := "unreleased" }
    sections := [] }

/-- `get_changelog` on an already-parsed changelog (reading and parsing the
file is delegated to `keepachangelog.to_dict`).  `none` models the uncaught
`IndexError` of `[-1]` on an empty sorted list and the `StopIteration` of
`next` on an empty generator. -/
def get_changelog (cl : Changelog) : Option Changelog :=
  if clHasKey cl "unreleased" then some cl
  else
    let versions := changelogVersions cl
    match (to_sorted_semantic (versions.map clean_version_str)).getLast? with
    | none => none
    | some (last_version, _) =>
      match versions.find? (fun version => strHasSub last_version version) with
      | none => none
      | some version_name => some (("unreleased", unreleasedEntry version_name) :: cl)

/-! ## `parse_changelog` -/

/-- The loop body of `parse_changelog`: a matching line feeds the hook
dictionary, a non-matching non-empty line is kept verbatim, an empty line
is dropped. -/
def clLineStep (acc : List String × List (String × String)) (item : String) :
    List String × List (String × String) :=
  match hook_update_match item with
  | some p => (acc.1, dictSet acc.2 p.1 p.2)
  | none => if item ≠ "" then (acc.1 ++ [item], acc.2) else acc

/-- The loop of `parse_changelog` over the lines of the target section. -/
def parse_changelog_lines (lines : List String) : List String × List (String × String) :=
  lines.foldl clLineStep ([], [])

/-- `changelog_dict['unreleased'].setdefault(target_section, [])`: add an
empty section at the end if the name is absent. -/
def sectionsSetdefault (e : ChangelogEntry) (sect : String) : ChangelogEntry :=
  if e.sections.any (fun p => p.1 = sect) then e
  else { e with sections := e.sections ++ [(sect, [])] }

/-- `parse_changelog`: read the target section under `unreleased` (creating
it empty if absent — the returned changelog carries that mutation) and split
its lines into kept content and hook data.  `none` models the `KeyError`
when `unreleased` is missing. -/
def parse_changelog (cl : Changelog) (target_section : String) :
    Option (List String × List (String × String) × Changelog) :=
  match dictLookup cl "unreleased" with
  | none => none
  | some e =>
    let e1 := sectionsSetdefault e target_section
    let lines := (dictLookup e1.sections target_section).getD []
    let parsed := parse_changelog_lines lines
    some (parsed.1, parsed.2, dictSet cl "unreleased" e1)

/-! ## `parse_pull_request_body` -/

/-- The start marker. -/
def pr_body_marker_start : String := "<!--pre-commit.ci start-->"

/-- The end marker. -/
def pr_body_marker_end : String := "<!--pre-commit.ci end-->"

/-- The line loop of `parse_pull_request_body`: skip until the start marker,
stop at the end marker, record every matching checklist line in between. -/
def parsePRLines : List String → Bool → List (String × String) → List (String × String)
  | [], _, d => d
  | line :: rest, skip, d =>
    if pyStrip line = pr_body_marker_start then parsePRLines rest false d
    else if skip then parsePRLines rest true d
    else if pyStrip line = pr_body_marker_end then d
    else
      match pr_line_match line with
      | some p => parsePRLines rest false (dictSet d p.1 p.2)
      | none => parsePRLines rest false d

/-- `parse_pull_request_body`. -/
def parse_pull_request_body (pr_body : String) : List (String × String) :=
  parsePRLines (splitlines pr_body) true []

/-- The recognized `(name, new version)` pairs of the line loop in input
order (specification device for the last-wins property). -/
def prMatches : List String → Bool → List (String × String)
  | [], _ => []
  | line :: rest, skip =>
    if pyStrip line = pr_body_marker_start then prMatches rest false
    else if skip then prMatches rest true
    else if pyStrip line = pr_body_marker_end then []
    else
      match pr_line_match line with
      | some p => p :: prMatches rest false
      | none => prMatches rest false

/-- The recognized pairs of the changelog section loop, with the version the
mapping finally holds for a name (the last recorded one). -/
def lastRecorded (ps : List (String × String)) (name : String) : Option String :=
  ((ps.filter fun p => p.1 = name).getLast?).map Prod.snd

/-! ## `udpate_changelog_from_pr_body` (the script's own spelling) -/

/-- One iteration of the reconciliation loop: the prior hook `q` is carried
forward unless its lowered name occurs inside a lowered key of the
dictionary as it stands at that iteration. -/
def mergeStep (acc : List (String × String)) (q : String × String) :
    List (String × String) :=
  if acc.any (fun r => strHasSub (pyLower q.1) (pyLower r.1)) then acc
  else dictSet acc q.1 q.2

/-- The reconciliation loop (lines 137 to 139 of the script), starting from
the PR-derived dictionary. -/
def merge_hook_data (hook_data new_hook_data : List (String × String)) :
    List (String × String) :=
  hook_data.foldl mergeStep new_hook_data

/-- `key=str.lower` comparison used by `sorted`. -/
def strLowerLe (a b : String) : Bool :=
  listLe (pyLower a).toList (pyLower b).toList

/-- Strict case-insensitive comparison (for the ordering statements). -/
def strLowerLt (a b : String) : Bool :=
  listLt (pyLower a).toList (pyLower b).toList

/-- Lines 141 to 142 of the script: one generated line per merged entry, in
`sorted(new_hook_data, key=str.lower)` order. -/
def hook_update_lines (d : List (String × String)) : List String :=
  (sortBy strLowerLe (dictKeys d)).map fun name =>
    "-   Update `" ++ name ++ "` hook to v" ++ (dictLookup d name).getD ""

/-- Write `content` as section `sect` of entry `key` (line 144). -/
def clSetSection (cl : Changelog) (key sect : String) (content : List String) :
    Changelog :=
  match dictLookup cl key with
  | none => cl
  | some e => dictSet cl key { e with sections := dictSet e.sections sect content }

/-- `udpate_changelog_from_pr_body` up to the final serialization: the
updated changelog structure that is handed to `keepachangelog.from_dict`
and `mdformat` (both external collaborators). -/
def udpate_changelog_from_pr_body (cl0 : Changelog) (pr_body : String)
    (target_section : String) : Option Changelog :=
  match get_changelog cl0 with
  | none => none
  | some cl =>
    match parse_changelog cl target_section with
    | none => none
    | some (new_content, hook_data, cl1) =>
      let new_hook_data := parse_pull_request_body pr_body
      let merged := merge_hook_data hook_data new_hook_data
      some (clSetSection cl1 "unreleased" target_section
        (new_content ++ hook_update_lines merged))

/-! ## `main` -/

/-- The parsed command-line arguments. -/
structure CliArgs where
  path : String
  pr_body : String
  target_section : String
  deriving DecidableEq, Repr

/-- The call `main` makes after argument parsing (line 165 of the script):
the third argument is the literal `'repository'`, not `args.target_section`. -/
def run_main (cl : Changelog) (args : CliArgs) : Option Changelog :=
  udpate_changelog_from_pr_body cl args.pr_body "repository"

/-! ## Concrete inputs used by individual claims -/

/-- A changelog whose unreleased entry has an `Added` section holding a hook
line and an empty `repository` section (for the `--target-section` claim). -/
def c1_changelog : Changelog :=
  [("unreleased", ⟨⟨none, "url0", "unreleased"⟩,
    [("Added", ["- Update `old-hook` hook to v1.0"]), ("repository", [])]⟩)]

/-- A command line that asks for the `Added` section. -/
def c1_args : CliArgs :=
  { path := "CHANGELOG.md"
    pr_body := "<!--pre-commit.ci start-->\n- [a.io/new-hook: v1.0 → v2.0]\n<!--pre-commit.ci end-->"
    target_section := "Added" }

/-- The named section of the changelog produced by `main` on the inputs
above. -/
def c1_section (sect : String) : Option (List String) :=
  match run_main c1_changelog c1_args with
  | none => none
  | some cl =>
    match dictLookup cl "unreleased" with
    | none => none
    | some e => dictLookup e.sections sect

/-- The changelog of the spec's end-to-end example. -/
def c3_changelog : Changelog :=
  [("unreleased", ⟨⟨none, "url0", "unreleased"⟩,
    [("repository", ["- Update `black` hook to v22.1.0"])]⟩)]

/-- The pull-request body of the spec's end-to-end example. -/
def c3_pr_body : String :=
  "<!--pre-commit.ci start-->\n- [ ] [psf/black.github.io/path: v22.1.0 → v23.0.0]\n<!--pre-commit.ci end-->"

/-- The repository section the script produces on the example inputs. -/
def c3_result_section : Option (List String) :=
  match udpate_changelog_from_pr_body c3_changelog c3_pr_body "repository" with
  | none => none
  | some cl =>
    match dictLookup cl "unreleased" with
    | none => none
    | some e => dictLookup e.sections "repository"

/-- A changelog where the semantically highest version (`9.3`) is a
substring of another, semantically smaller, version key (`1.29.3`). -/
def c4_changelog : Changelog :=
  [("1.29.3", ⟨⟨none, "", "1.29.3"⟩, []⟩), ("9.3", ⟨⟨none, "", "9.3"⟩, []⟩)]

/-- A well-behaved two-version changelog (witness input). -/
def c4w_changelog : Changelog :=
  [("v1.2.3", ⟨⟨none, "", "v1.2.3"⟩, []⟩), ("2.0", ⟨⟨none, "", "2.0"⟩, []⟩)]

/-- A pull-request body recording two names that differ only by case. -/
def c5_pr_body : String :=
  "<!--pre-commit.ci start-->\n- [a.io/Black: v1 → v2]\n- [a.io/black: v1 → v3]\n<!--pre-commit.ci end-->"

/-- A checklist line inside the marked region. -/
def c6_mid_line : String := "- [a.io/q: v1 → v2]"

/-- A well-formed update line placed outside the marked region. -/
def c6_stray_line : String := "- [b.io/x: v3 → v4]"

/-- The stray line before the start marker. -/
def c6_body_a : String :=
  c6_stray_line ++ "\n" ++ pr_body_marker_start ++ "\n" ++ c6_mid_line ++ "\n"
    ++ pr_body_marker_end

/-- The stray line after the end marker. -/
def c6_body_b : String :=
  pr_body_marker_start ++ "\n" ++ c6_mid_line ++ "\n" ++ pr_body_marker_end
    ++ "\n" ++ c6_stray_line

/-- A one-version changelog (witness input for the fixed compare URL). -/
def c10_changelog : Changelog :=
  [("1.0.0", ⟨⟨none, "", "1.0.0"⟩, []⟩)]

/-! ## Lemmas about the dictionary model -/

theorem dictKeys_nil {β : Type} : dictKeys ([] : List (String × β)) = [] := rfl

theorem dictKeys_cons {β : Type} (k1 : String) (v1 : β) (rest : List (String × β)) :
    dictKeys ((k1, v1) :: rest) = k1 :: dictKeys rest := rfl

theorem dictLookup_dictSet {β : Type} (d : List (String × β)) (k : String) (v : β)
    (q : String) :
    dictLookup (dictSet d k v) q = if k = q then some v else dictLookup d q := by
  induction d with
  | nil => simp [dictSet, dictLookup]
  | cons p rest ih =>
    obtain ⟨k1, v1⟩ := p
    by_cases h1 : k1 = k
    · subst h1
      by_cases h2 : k1 = q <;> simp [dictSet, dictLookup, h2]
    · by_cases h2 : k1 = q
      · have hkq : ¬k = q := fun hh => h1 (h2.trans hh.symm)
        have hqk : ¬q = k := fun hh => hkq hh.symm
        simp [dictSet, dictLookup, h1, h2, hkq, hqk]
      · simp [dictSet, dictLookup, h1, h2, ih]

theorem dictLookup_dictSet_oor {β : Type} (d : List (String × β)) (k : String) (v : β)
    (q : String) :
    dictLookup (dictSet d k v) q =
      oor (if k = q then some v else none) (dictLookup d q) := by
  rw [dictLookup_dictSet]
  by_cases h : k = q <;> simp [h, oor]

theorem mem_dictKeys_dictSet {β : Type} (d : List (String × β)) (k : String) (v : β)
    (q : String) :
    q ∈ dictKeys (dictSet d k v) ↔ q ∈ dictKeys d ∨ q = k := by
  induction d with
  | nil => simp [dictSet, dictKeys]
  | cons p rest ih =>
    obtain ⟨k1, v1⟩ := p
    by_cases h1 : k1 = k
    · subst h1
      simp only [dictSet, eq_self_iff_true, if_true, dictKeys_cons, List.mem_cons]
      tauto
    · simp only [dictSet, if_neg h1, dictKeys_cons, List.mem_cons]
      rw [ih]
      tauto

theorem dictKeys_dictSet_mem {β : Type} (d : List (String × β)) (k : String) (v : β)
    (h : k ∈ dictKeys d) :
    dictKeys (dictSet d k v) = dictKeys d := by
  induction d with
  | nil => simp [dictKeys] at h
  | cons p rest ih =>
    obtain ⟨k1, v1⟩ := p
    by_cases h1 : k1 = k
    · subst h1; simp [dictSet, dictKeys_cons]
    · rw [dictKeys_cons, List.mem_cons] at h
      have h2 : k ∈ dictKeys rest := by
        rcases h with h | h
        · exact absurd h.symm h1
        · exact h
      simp only [dictSet, if_neg h1, dictKeys_cons, ih h2]

theorem dictKeys_dictSet_not_mem {β : Type} (d : List (String × β)) (k : String) (v : β)
    (h : k ∉ dictKeys d) :
    dictKeys (dictSet d k v) = dictKeys d ++ [k] := by
  induction d with
  | nil => simp [dictSet, dictKeys]
  | cons p rest ih =>
    obtain ⟨k1, v1⟩ := p
    rw [dictKeys_cons, List.mem_cons] at h
    push_neg at h
    have h1 : ¬k1 = k := fun hh => h.1 hh.symm
    simp only [dictSet, if_neg h1, dictKeys_cons, ih h.2, List.cons_append]

theorem nodup_dictKeys_dictSet {β : Type} (d : List (String × β)) (k : String) (v : β)
    (h : (dictKeys d).Nodup) :
    (dictKeys (dictSet d k v)).Nodup := by
  by_cases hm : k ∈ dictKeys d
  · rw [dictKeys_dictSet_mem d k v hm]; exact h
  · rw [dictKeys_dictSet_not_mem d k v hm, List.nodup_append]
    refine ⟨h, List.nodup_singleton k, ?_⟩
    intro a ha hb
    rw [List.mem_singleton] at hb
    subst hb
    exact hm ha

/-! ## Lemmas about `oor` and `getLast?` -/

theorem oor_none {β : Type} (a : Option β) : oor a none = a := by
  cases a <;> rfl

theorem none_oor {β : Type} (a : Option β) : oor none a = a := rfl

theorem oor_assoc {β : Type} (a b c : Option β) :
    oor (oor a b) c = oor a (oor b c) := by
  cases a <;> rfl

theorem getLast?_cons_oor {α : Type} (a : α) (l : List α) :
    (a :: l).getLast? = oor l.getLast? (some a) := by
  cases l with
  | nil => rfl
  | cons b t =>
    rw [List.getLast?_cons_cons]
    rcases hx : (b :: t).getLast? with _ | x
    · have h : (b :: t).getLast?.isSome := by
        rw [List.getLast?_isSome]; simp
      rw [hx] at h
      simp at h
    · rfl

theorem mem_of_getLast? {α : Type} (l : List α) (x : α) (h : l.getLast? = some x) :
    x ∈ l := by
  induction l with
  | nil => simp at h
  | cons a t ih =>
    rcases t with _ | ⟨b, t2⟩
    · have h2 : a = x := by
        have : ([a] : List α).getLast? = some a := rfl
        rw [this] at h
        exact Option.some.inj h
      simp [h2]
    · rw [List.getLast?_cons_cons] at h
      exact List.mem_cons_of_mem a (ih h)

/-! ## Last-wins lemmas for the dictionary-building loops -/

theorem lastRecorded_nil (name : String) : lastRecorded [] name = none := rfl

theorem lastRecorded_cons (p : String × String) (ps : List (String × String))
    (name : String) :
    lastRecorded (p :: ps) name =
      oor (lastRecorded ps name) (if p.1 = name then some p.2 else none) := by
  unfold lastRecorded
  by_cases h : p.1 = name
  · rw [List.filter_cons_of_pos (by simpa using h), getLast?_cons_oor]
    rcases hx : (List.filter (fun q => q.1 = name) ps).getLast? with _ | x <;>
      simp [oor, h, hx]
  · rw [List.filter_cons_of_neg (by simpa using h)]
    simp [oor_none, h]

theorem foldl_dictSet_lookup (ps : List (String × String)) :
    ∀ (d : List (String × String)) (q : String),
      dictLookup (ps.foldl (fun a p => dictSet a p.1 p.2) d) q =
        oor (lastRecorded ps q) (dictLookup d q) := by
  induction ps with
  | nil => intro d q; simp [lastRecorded_nil, none_oor]
  | cons p ps ih =>
    intro d q
    rw [List.foldl_cons, ih, lastRecorded_cons, oor_assoc]
    congr 1
    rw [dictLookup_dictSet_oor]

theorem foldl_dictSet_nodup (ps : List (String × String)) :
    ∀ (d : List (String × String)), (dictKeys d).Nodup →
      (dictKeys (ps.foldl (fun a p => dictSet a p.1 p.2) d)).Nodup := by
  induction ps with
  | nil => intro d h; exact h
  | cons p ps ih =>
    intro d h
    rw [List.foldl_cons]
    exact ih _ (nodup_dictKeys_dictSet _ _ _ h)

theorem parse_changelog_lines_aux (lines : List String) :
    ∀ (c : List String) (d : List (String × String)),
      (lines.foldl clLineStep (c, d)).2 =
        (lines.filterMap hook_update_match).foldl (fun a p => dictSet a p.1 p.2) d := by
  induction lines with
  | nil => intro c d; rfl
  | cons item rest ih =>
    intro c d
    rw [List.foldl_cons, List.filterMap_cons]
    rcases hm : hook_update_match item with _ | p
    · simp only [hm]
      by_cases he : item = ""
      · have hstep : clLineStep (c, d) item = (c, d) := by
          simp only [clLineStep, hm]
          simp [he]
        rw [hstep]
        exact ih _ _
      · have hstep : clLineStep (c, d) item = (c ++ [item], d) := by
          simp only [clLineStep, hm]
          simp [he]
        rw [hstep]
        exact ih _ _
    · simp only [hm, List.foldl_cons]
      have hstep : clLineStep (c, d) item = (c, dictSet d p.1 p.2) := by
        simp [clLineStep, hm]
      rw [hstep]
      exact ih _ _

theorem parse_changelog_lines_snd (lines : List String) :
    (parse_changelog_lines lines).2 =
      (lines.filterMap hook_update_match).foldl (fun a p => dictSet a p.1 p.2) [] :=
  parse_changelog_lines_aux lines [] []

theorem parsePRLines_lookup (lines : List String) :
    ∀ (skip : Bool) (d : List (String × String)) (q : String),
      dictLookup (parsePRLines lines skip d) q =
        oor (lastRecorded (prMatches lines skip) q) (dictLookup d q) := by
  induction lines with
  | nil => intro skip d q; simp [parsePRLines, prMatches, lastRecorded_nil, none_oor]
  | cons line rest ih =>
    intro skip d q
    by_cases h1 : pyStrip line = pr_body_marker_start
    · simp only [parsePRLines, prMatches, if_pos h1]
      exact ih false d q
    · cases skip with
      | true =>
        simp only [parsePRLines, prMatches, if_neg h1, if_pos rfl]
        exact ih true d q
      | false =>
        by_cases h2 : pyStrip line = pr_body_marker_end
        · simp only [parsePRLines, prMatches, if_neg h1, Bool.false_eq_true, if_false,
            if_pos h2, lastRecorded_nil, none_oor]
        · rcases hm : pr_line_match line with _ | p
          · simp only [parsePRLines, prMatches, if_neg h1, Bool.false_eq_true, if_false,
              if_neg h2, hm]
            exact ih false d q
          · simp only [parsePRLines, prMatches, if_neg h1, Bool.false_eq_true, if_false,
              if_neg h2, hm]
            rw [ih false _ q, lastRecorded_cons, oor_assoc]
            congr 1
            rw [dictLookup_dictSet_oor]

theorem parsePRLines_nodup (lines : List String) :
    ∀ (skip : Bool) (d : List (String × String)), (dictKeys d).Nodup →
      (dictKeys (parsePRLines lines skip d)).Nodup := by
  induction lines with
  | nil => intro skip d h; exact h
  | cons line rest ih =>
    intro skip d h
    by_cases h1 : pyStrip line = pr_body_marker_start
    · simp only [parsePRLines, if_pos h1]
      exact ih false d h
    · cases skip with
      | true =>
        simp only [parsePRLines, if_neg h1, if_pos rfl]
        exact ih true d h
      | false =>
        by_cases h2 : pyStrip line = pr_body_marker_end
        · simp only [parsePRLines, if_neg h1, Bool.false_eq_true, if_false, if_pos h2]
          exact h
        · rcases hm : pr_line_match line with _ | p
          · simp only [parsePRLines, if_neg h1, Bool.false_eq_true, if_false,
              if_neg h2, hm]
            exact ih false d h
          · simp only [parsePRLines, if_neg h1, Bool.false_eq_true, if_false,
              if_neg h2, hm]
            exact ih false _ (nodup_dictKeys_dictSet _ _ _ h)

/-! ## Lemmas about the reconciliation loop -/

theorem merge_lookup_not_mem (P : List (String × String)) :
    ∀ (acc : List (String × String)) (q : String), q ∉ dictKeys P →
      dictLookup (merge_hook_data P acc) q = dictLookup acc q := by
  induction P with
  | nil => intro acc q _; rfl
  | cons hw t ih =>
    intro acc q h
    obtain ⟨hk, hv⟩ := hw
    rw [dictKeys_cons, List.mem_cons] at h
    push_neg at h
    have hrw : merge_hook_data ((hk, hv) :: t) acc =
        merge_hook_data t (mergeStep acc (hk, hv)) := rfl
    rw [hrw]
    by_cases hc : (acc.any fun r => strHasSub (pyLower hk) (pyLower r.1)) = true
    · rw [show mergeStep acc (hk, hv) = acc from by simp [mergeStep, hc]]
      exact ih acc q h.2
    · rw [show mergeStep acc (hk, hv) = dictSet acc hk hv from by simp [mergeStep, hc]]
      rw [ih _ q h.2, dictLookup_dictSet, if_neg (fun hh : hk = q => h.1 hh.symm)]

theorem merge_lookup_matched (P : List (String × String)) :
    ∀ (acc : List (String × String)) (p : String),
      (∃ n ∈ dictKeys acc, strHasSub (pyLower p) (pyLower n) = true) →
      dictLookup (merge_hook_data P acc) p = dictLookup acc p := by
  induction P with
  | nil => intro acc p _; rfl
  | cons hw t ih =>
    intro acc p hex
    obtain ⟨hk, hv⟩ := hw
    have hrw : merge_hook_data ((hk, hv) :: t) acc =
        merge_hook_data t (mergeStep acc (hk, hv)) := rfl
    rw [hrw]
    by_cases hc : (acc.any fun r => strHasSub (pyLower hk) (pyLower r.1)) = true
    · rw [show mergeStep acc (hk, hv) = acc from by simp [mergeStep, hc]]
      exact ih acc p hex
    · have hkp : hk ≠ p := by
        intro hh
        subst hh
        obtain ⟨n, hn, hsub⟩ := hex
        apply hc
        rw [List.any_eq_true]
        obtain ⟨r, hr, hrfst⟩ := List.mem_map.mp hn
        refine ⟨r, hr, ?_⟩
        rw [hrfst]
        exact hsub
      rw [show mergeStep acc (hk, hv) = dictSet acc hk hv from by simp [mergeStep, hc]]
      have hex2 : ∃ n ∈ dictKeys (dictSet acc hk hv),
          strHasSub (pyLower p) (pyLower n) = true := by
        obtain ⟨n, hn, hsub⟩ := hex
        exact ⟨n, (mem_dictKeys_dictSet _ _ _ _).mpr (Or.inl hn), hsub⟩
      rw [ih _ p hex2, dictLookup_dictSet, if_neg hkp]

theorem merge_lookup_carried (P : List (String × String)) :
    ∀ (acc : List (String × String)) (p v : String), (p, v) ∈ P →
      (dictKeys P).Nodup →
      (∀ a ∈ dictKeys P, ∀ b ∈ dictKeys P, a ≠ b →
        strHasSub (pyLower a) (pyLower b) = false) →
      (∀ n ∈ dictKeys acc, strHasSub (pyLower p) (pyLower n) = false) →
      dictLookup (merge_hook_data P acc) p = some v := by
  induction P with
  | nil => intro acc p v hp _ _ _; simp at hp
  | cons hw t ih =>
    intro acc p v hp hnd hpw hacc
    obtain ⟨hk, hv⟩ := hw
    rw [dictKeys_cons, List.nodup_cons] at hnd
    have hrw : merge_hook_data ((hk, hv) :: t) acc =
        merge_hook_data t (mergeStep acc (hk, hv)) := rfl
    rw [hrw]
    rcases List.mem_cons.mp hp with heq | hmem
    · have hp1 : p = hk := congrArg Prod.fst heq
      have hp2 : v = hv := congrArg Prod.snd heq
      subst hp1
      subst hp2
      have hc : (acc.any fun r => strHasSub (pyLower p) (pyLower r.1)) = false := by
        rw [← Bool.not_eq_true, List.any_eq_true]
        rintro ⟨r, hr, hsub⟩
        have hrk : r.1 ∈ dictKeys acc := List.mem_map_of_mem Prod.fst hr
        simp [hacc r.1 hrk] at hsub
      rw [show mergeStep acc (p, v) = dictSet acc p v from by simp [mergeStep, hc]]
      rw [merge_lookup_not_mem t _ p hnd.1, dictLookup_dictSet, if_pos rfl]
    · have hpt : p ∈ dictKeys t := List.mem_map_of_mem Prod.fst hmem
      have hkp : hk ≠ p := fun hh => hnd.1 (hh ▸ hpt)
      have hpw2 : ∀ a ∈ dictKeys t, ∀ b ∈ dictKeys t, a ≠ b →
          strHasSub (pyLower a) (pyLower b) = false := by
        intro a ha b hb hab
        exact hpw a (by rw [dictKeys_cons]; exact List.mem_cons_of_mem _ ha) b
          (by rw [dictKeys_cons]; exact List.mem_cons_of_mem _ hb) hab
      by_cases hc : (acc.any fun r => strHasSub (pyLower hk) (pyLower r.1)) = true
      · rw [show mergeStep acc (hk, hv) = acc from by simp [mergeStep, hc]]
        exact ih acc p v hmem hnd.2 hpw2 hacc
      · rw [show mergeStep acc (hk, hv) = dictSet acc hk hv from by simp [mergeStep, hc]]
        apply ih _ p v hmem hnd.2 hpw2
        intro n hn
        rcases (mem_dictKeys_dictSet _ _ _ _).mp hn with hn1 | hn1
        · exact hacc n hn1
        · subst hn1
          exact hpw p (by rw [dictKeys_cons]; exact List.mem_cons_of_mem _ hpt) n
            (by rw [dictKeys_cons]; exact List.mem_cons_self _ _)
            (fun hh => hkp hh.symm)

/-! ## Lemmas about the insertion sort -/

theorem insortBy_perm {α : Type} (le : α → α → Bool) (x : α) (l : List α) :
    List.Perm (insortBy le x l) (x :: l) := by
  induction l with
  | nil => exact List.Perm.refl _
  | cons y ys ih =>
    by_cases h : le y x = true
    · rw [show insortBy le x (y :: ys) = y :: insortBy le x ys from by
        simp [insortBy, h]]
      exact (ih.cons y).trans (List.Perm.swap x y ys)
    · rw [show insortBy le x (y :: ys) = x :: y :: ys from by simp [insortBy, h]]

theorem sortBy_perm_aux {α : Type} (le : α → α → Bool) (l : List α) :
    ∀ acc, List.Perm (l.foldl (fun a x => insortBy le x a) acc) (l ++ acc) := by
  induction l with
  | nil => intro acc; exact List.Perm.refl _
  | cons x t ih =>
    intro acc
    rw [List.foldl_cons]
    have h1 := ih (insortBy le x acc)
    have h2 : List.Perm (t ++ insortBy le x acc) (t ++ (x :: acc)) :=
      List.Perm.append_left t (insortBy_perm le x acc)
    have h3 : List.Perm (t ++ (x :: acc)) (x :: (t ++ acc)) := List.perm_middle
    exact (h1.trans h2).trans h3

theorem sortBy_perm {α : Type} (le : α → α → Bool) (l : List α) :
    List.Perm (sortBy le l) l := by
  have h := sortBy_perm_aux le l []
  rw [List.append_nil] at h
  exact h

theorem chain'_insortBy {α : Type} (le : α → α → Bool)
    (htot : ∀ a b, le a b = true ∨ le b a = true) (x : α) :
    ∀ (l : List α), List.Chain' (fun a b => le a b = true) l →
      List.Chain' (fun a b => le a b = true) (insortBy le x l) := by
  intro l
  induction l with
  | nil => intro _; simp [insortBy]
  | cons y ys ih =>
    intro h
    by_cases hc : le y x = true
    · rw [show insortBy le x (y :: ys) = y :: insortBy le x ys from by
        simp [insortBy, hc]]
      rw [List.chain'_cons']
      refine ⟨?_, ih h.tail⟩
      intro z hz
      cases ys with
      | nil =>
        rw [show insortBy le x ([] : List α) = [x] from rfl, List.head?_cons,
          Option.mem_def] at hz
        obtain rfl := Option.some.inj hz
        exact hc
      | cons w ws =>
        by_cases hcw : le w x = true
        · rw [show insortBy le x (w :: ws) = w :: insortBy le x ws from by
            simp [insortBy, hcw], List.head?_cons, Option.mem_def] at hz
          obtain rfl := Option.some.inj hz
          exact (List.chain'_cons.mp h).1
        · rw [show insortBy le x (w :: ws) = x :: w :: ws from by
            simp [insortBy, hcw], List.head?_cons, Option.mem_def] at hz
          obtain rfl := Option.some.inj hz
          exact hc
    · rw [show insortBy le x (y :: ys) = x :: y :: ys from by simp [insortBy, hc]]
      rw [List.chain'_cons]
      exact ⟨(htot x y).resolve_right hc, h⟩

theorem chain'_sortBy_aux {α : Type} (le : α → α → Bool)
    (htot : ∀ a b, le a b = true ∨ le b a = true) (l : List α) :
    ∀ acc, List.Chain' (fun a b => le a b = true) acc →
      List.Chain' (fun a b => le a b = true)
        (l.foldl (fun a x => insortBy le x a) acc) := by
  induction l with
  | nil => intro acc h; exact h
  | cons x t ih =>
    intro acc h
    rw [List.foldl_cons]
    exact ih _ (chain'_insortBy le htot x acc h)

theorem chain'_sortBy {α : Type} (le : α → α → Bool)
    (htot : ∀ a b, le a b = true ∨ le b a = true) (l : List α) :
    List.Chain' (fun a b => le a b = true) (sortBy le l) :=
  chain'_sortBy_aux le htot l [] List.chain'_nil

theorem chain'_le_getLast {α : Type} (le : α → α → Bool)
    (htrans : ∀ a b c, le a b = true → le b c = true → le a c = true)
    (hrefl : ∀ a, le a a = true) :
    ∀ (l : List α), List.Chain' (fun a b => le a b = true) l →
      ∀ (m : α), l.getLast? = some m → ∀ x ∈ l, le x m = true := by
  intro l
  induction l with
  | nil => intro _ m hm; simp at hm
  | cons a t ih =>
    intro h m hm x hx
    cases t with
    | nil =>
      have hma : m = a := by
        have h1 : ([a] : List α).getLast? = some a := rfl
        rw [h1] at hm
        exact (Option.some.inj hm).symm
      have hxa : x = a := List.mem_singleton.mp hx
      rw [hma, hxa]
      exact hrefl a
    | cons b t2 =>
      rw [List.getLast?_cons_cons] at hm
      have hbm : ∀ y ∈ b :: t2, le y m = true :=
        ih (List.chain'_cons.mp h).2 m hm
      rcases List.mem_cons.mp hx with rfl | hx2
      · exact htrans x b m (List.chain'_cons.mp h).1 (hbm b (List.mem_cons_self b t2))
      · exact hbm x hx2

/-! ## Lemmas about the orderings -/

theorem listLe_refl (l : List Char) : listLe l l = true := by
  induction l with
  | nil => rfl
  | cons c t ih => simp [listLe, ih]

theorem listLe_total (a : List Char) : ∀ b, listLe a b = true ∨ listLe b a = true := by
  induction a with
  | nil => intro b; left; rfl
  | cons c as ih =>
    intro b
    cases b with
    | nil => right; rfl
    | cons d bs =>
      by_cases h : c = d
      · subst h
        rcases ih bs with h2 | h2
        · left; simp [listLe, h2]
        · right; simp [listLe, h2]
      · rcases lt_trichotomy c d with hlt | heq | hgt
        · left; simp [listLe, h, hlt]
        · exact absurd heq h
        · right
          have hdc : ¬d = c := fun hh => h hh.symm
          simp [listLe, hdc, hgt]

theorem listLe_ne_lt (a : List Char) : ∀ b, listLe a b = true → a ≠ b →
    listLt a b = true := by
  induction a with
  | nil =>
    intro b hle hne
    cases b with
    | nil => exact absurd rfl hne
    | cons d bs => rfl
  | cons c as ih =>
    intro b hle hne
    cases b with
    | nil => simp [listLe] at hle
    | cons d bs =>
      by_cases h : c = d
      · subst h
        simp only [listLe, if_pos rfl] at hle
        have hne2 : as ≠ bs := fun hh => hne (by rw [hh])
        simp [listLt, ih bs hle hne2]
      · simp only [listLe, if_neg h] at hle
        simp [listLt, h, hle]

theorem semLe_refl (x : Nat × Nat × Nat) : semLe x x = true := by
  obtain ⟨a, b, c⟩ := x
  simp [semLe]

theorem semLe_total (x y : Nat × Nat × Nat) :
    semLe x y = true ∨ semLe y x = true := by
  obtain ⟨a, b, c⟩ := x
  obtain ⟨d, e, f⟩ := y
  simp only [semLe, Bool.or_eq_true, Bool.and_eq_true, decide_eq_true_eq]
  omega

theorem semLe_trans (x y z : Nat × Nat × Nat) (h1 : semLe x y = true)
    (h2 : semLe y z = true) : semLe x z = true := by
  obtain ⟨a, b, c⟩ := x
  obtain ⟨d, e, f⟩ := y
  obtain ⟨g, i, j⟩ := z
  simp only [semLe, Bool.or_eq_true, Bool.and_eq_true, decide_eq_true_eq] at h1 h2 ⊢
  omega

theorem string_toList_inj (s t : String) (h : s.toList = t.toList) : s = t := by
  cases s with
  | mk d1 =>
    cases t with
    | mk d2 =>
      have h2 : d1 = d2 := by simpa [String.toList] using h
      rw [h2]

theorem strLowerLe_ne_lt (a b : String) (hle : strLowerLe a b = true)
    (hne : pyLower a ≠ pyLower b) : strLowerLt a b = true := by
  unfold strLowerLe at hle
  unfold strLowerLt
  apply listLe_ne_lt _ _ hle
  intro hh
  exact hne (string_toList_inj _ _ hh)

theorem chain'_lt_of_nodup :
    ∀ (l : List String), List.Chain' (fun a b => strLowerLe a b = true) l →
      (l.map pyLower).Nodup →
      List.Chain' (fun a b => strLowerLt a b = true) l := by
  intro l
  induction l with
  | nil => intro _ _; simp
  | cons a t ih =>
    intro h hn
    cases t with
    | nil => simp
    | cons b t2 =>
      rw [List.chain'_cons] at h ⊢
      rw [List.map_cons, List.nodup_cons] at hn
      have hne : pyLower a ≠ pyLower b := fun hh =>
        hn.1 (by rw [List.map_cons, hh]; exact List.mem_cons_self _ _)
      exact ⟨strLowerLe_ne_lt a b h.1 hne, ih h.2 hn.2⟩

/-! ## Lemmas about the marker region of the PR body parser -/

theorem parsePRLines_skip_pre (pre : List String) :
    ∀ (rest : List String) (d : List (String × String)),
      (∀ l ∈ pre, pyStrip l ≠ pr_body_marker_start) →
      parsePRLines (pre ++ rest) true d = parsePRLines rest true d := by
  induction pre with
  | nil => intro rest d _; rfl
  | cons l t ih =>
    intro rest d h
    have hl : pyStrip l ≠ pr_body_marker_start := h l (List.mem_cons_self _ _)
    rw [List.cons_append]
    rw [show parsePRLines (l :: (t ++ rest)) true d = parsePRLines (t ++ rest) true d
      from by simp [parsePRLines, hl]]
    exact ih rest d (fun x hx => h x (List.mem_cons_of_mem _ hx))

theorem parsePRLines_active_eq (mid : List String) :
    ∀ (d : List (String × String)) (e1 e2 : String) (post1 post2 : List String),
      pyStrip e1 = pr_body_marker_end → pyStrip e2 = pr_body_marker_end →
      parsePRLines (mid ++ e1 :: post1) false d =
        parsePRLines (mid ++ e2 :: post2) false d := by
  induction mid with
  | nil =>
    intro d e1 e2 post1 post2 he1 he2
    have hne : pr_body_marker_end ≠ pr_body_marker_start := by decide
    rw [List.nil_append, List.nil_append]
    rw [show parsePRLines (e1 :: post1) false d = d from by
      simp [parsePRLines, he1, hne]]
    rw [show parsePRLines (e2 :: post2) false d = d from by
      simp [parsePRLines, he2, hne]]
  | cons l t ih =>
    intro d e1 e2 post1 post2 he1 he2
    rw [List.cons_append, List.cons_append]
    by_cases h1 : pyStrip l = pr_body_marker_start
    · rw [show parsePRLines (l :: (t ++ e1 :: post1)) false d =
          parsePRLines (t ++ e1 :: post1) false d from by simp [parsePRLines, h1]]
      rw [show parsePRLines (l :: (t ++ e2 :: post2)) false d =
          parsePRLines (t ++ e2 :: post2) false d from by simp [parsePRLines, h1]]
      exact ih d e1 e2 post1 post2 he1 he2
    · by_cases h2 : pyStrip l = pr_body_marker_end
      · have hne : pr_body_marker_end ≠ pr_body_marker_start := by decide
        rw [show parsePRLines (l :: (t ++ e1 :: post1)) false d = d from by
          simp [parsePRLines, h1, h2, hne]]
        rw [show parsePRLines (l :: (t ++ e2 :: post2)) false d = d from by
          simp [parsePRLines, h1, h2, hne]]
      · rcases hm : pr_line_match l with _ | p
        · rw [show parsePRLines (l :: (t ++ e1 :: post1)) false d =
              parsePRLines (t ++ e1 :: post1) false d from by
            simp [parsePRLines, h1, h2, hm]]
          rw [show parsePRLines (l :: (t ++ e2 :: post2)) false d =
              parsePRLines (t ++ e2 :: post2) false d from by
            simp [parsePRLines, h1, h2, hm]]
          exact ih d e1 e2 post1 post2 he1 he2
        · rw [show parsePRLines (l :: (t ++ e1 :: post1)) false d =
              parsePRLines (t ++ e1 :: post1) false (dictSet d p.1 p.2) from by
            simp [parsePRLines, h1, h2, hm]]
          rw [show parsePRLines (l :: (t ++ e2 :: post2)) false d =
              parsePRLines (t ++ e2 :: post2) false (dictSet d p.1 p.2) from by
            simp [parsePRLines, h1, h2, hm]]
          exact ih _ e1 e2 post1 post2 he1 he2

/-! ## The claims -/

/-- C1: the claim says the subsection read, merged and rewritten is the one
named by `--target-section`.  The code ignores the flag: `main` passes the
literal `'repository'` (line 165), so invoking it with `--target-section
Added` leaves the `Added` section untouched (its hook line is not even
parsed) and rewrites `repository` instead. -/
theorem c1_main_ignores_target_section :
    c1_args.target_section = "Added" ∧
    c1_section "Added" = some ["- Update `old-hook` hook to v1.0"] ∧
    c1_section "repository" = some ["-   Update `new-hook` hook to v2.0"] := by
  decide

/-- C2 counterexample: with prior record `P = [fab-tool ↦ 2, ab ↦ 1]` and an
empty PR-derived record `N`, the name `ab` is a substring of no name in `N`,
yet it is absent from the merged record: the carried-forward `fab-tool` is
already in the dictionary when `ab` is checked, and `ab` occurs inside
`fab-tool`. -/
theorem c2_counterexample :
    (∀ n ∈ dictKeys ([] : List (String × String)),
      strHasSub (pyLower "ab") (pyLower n) = false) ∧
    dictLookup (merge_hook_data [("fab-tool", "2"), ("ab", "1")] []) "ab" = none := by
  decide

/-- C2 amended: provided no prior-record name's lowercase form is a
substring of a different prior-record name's lowercase form, the claim
holds: a prior name whose lowercase form occurs in some PR-derived name
resolves to the PR-derived record (the PR version wins), and a prior name
matching no PR-derived name keeps exactly its prior version. -/
theorem c2_merge_precedence_amended (P N : List (String × String))
    (hnd : (dictKeys P).Nodup)
    (hpw : ∀ a ∈ dictKeys P, ∀ b ∈ dictKeys P, a ≠ b →
      strHasSub (pyLower a) (pyLower b) = false)
    (p v : String) (hp : (p, v) ∈ P) :
    ((∃ n ∈ dictKeys N, strHasSub (pyLower p) (pyLower n) = true) →
      dictLookup (merge_hook_data P N) p = dictLookup N p) ∧
    ((∀ n ∈ dictKeys N, strHasSub (pyLower p) (pyLower n) = false) →
      dictLookup (merge_hook_data P N) p = some v) :=
  ⟨fun hex => merge_lookup_matched P N p hex,
   fun hall => merge_lookup_carried P N p v hp hnd hpw hall⟩

/-- C2 witness: `black` is superseded by `psf/black`, while `foo-tool`
is carried forward. -/
theorem c2_merge_precedence_witness :
    dictLookup (merge_hook_data [("black", "22.1.0"), ("foo-tool", "1.2")]
      [("psf/black", "23.0.0")]) "black" =
      dictLookup [("psf/black", "23.0.0")] "black" ∧
    dictLookup (merge_hook_data [("black", "22.1.0"), ("foo-tool", "1.2")]
      [("psf/black", "23.0.0")]) "foo-tool" = some "1.2" :=
  ⟨(c2_merge_precedence_amended [("black", "22.1.0"), ("foo-tool", "1.2")]
      [("psf/black", "23.0.0")] (by decide) (by decide) "black" "22.1.0"
      (by decide)).1 (by decide),
   (c2_merge_precedence_amended [("black", "22.1.0"), ("foo-tool", "1.2")]
      [("psf/black", "23.0.0")] (by decide) (by decide) "foo-tool" "1.2"
      (by decide)).2 (by decide)⟩

/-- C3 counterexample: on the spec's exact example input the resulting
repository section is the single line for `black` at its old version, and
the line the claim announces for `psf/black` does not appear: the checklist
line `- [ ] [psf/black.github.io/path: v22.1.0 → v23.0.0]` never matches the
PR parser (the greedy bracket capture grabs up to the last `]`, so the label
starts with `] [` and fails the URL pattern). -/
theorem c3_counterexample :
    c3_result_section = some ["-   Update `black` hook to v22.1.0"] ∧
    "-   Update `psf/black` hook to v23.0.0" ∉ ["-   Update `black` hook to v22.1.0"] := by
  decide

/-- C3 amended: on the example input the PR body parser extracts nothing,
so the prior `black` entry is carried forward and the output repository
section holds exactly the one regenerated line for `black` at v22.1.0. -/
theorem c3_end_to_end_amended :
    parse_pull_request_body c3_pr_body = [] ∧
    c3_result_section = some ["-   Update `black` hook to v22.1.0"] := by
  decide

/-- C4 counterexample: with versions `1.29.3` and `9.3`, the semantically
highest version is `9.3`, but the substring membership test locates
`1.29.3` first (it contains `9.3`), so the synthesized compare URL names
`1.29.3`, not the key of the semantically highest version. -/
theorem c4_counterexample :
    get_changelog c4_changelog =
      some (("unreleased", unreleasedEntry "1.29.3") :: c4_changelog) ∧
    semLe (semverKey (clean_version_str "9.3")) (semverKey (clean_version_str "1.29.3")) =
      false ∧
    "1.29.3" ≠ "9.3" := by
  decide

/-- C4 amended: the left-hand side of the synthesized compare URL is the
first version key (in changelog order) containing, as a substring, the
cleaned form `m` of the semantically highest version; `m` itself is a
maximum of the cleaned versions in semantic order. -/
theorem c4_synthesized_url_amended (cl : Changelog)
    (h1 : clHasKey cl "unreleased" = false) (m : String) (k : Nat × Nat × Nat)
    (h2 : (to_sorted_semantic ((changelogVersions cl).map clean_version_str)).getLast? =
      some (m, k))
    (vn : String)
    (h3 : (changelogVersions cl).find? (fun version => strHasSub m version) = some vn) :
    m ∈ (changelogVersions cl).map clean_version_str ∧
    (∀ w ∈ (changelogVersions cl).map clean_version_str,
      semLe (semverKey w) (semverKey m) = true) ∧
    get_changelog cl = some (("unreleased", unreleasedEntry vn) :: cl) := by
  have hperm := sortBy_perm (fun p q : String × (Nat × Nat × Nat) => semLe p.2 q.2)
    (((changelogVersions cl).map clean_version_str).map fun v => (v, semverKey v))
  have hmem_pair : (m, k) ∈
      to_sorted_semantic ((changelogVersions cl).map clean_version_str) :=
    mem_of_getLast? _ _ h2
  have hmem2 : (m, k) ∈ ((changelogVersions cl).map clean_version_str).map
      (fun v => (v, semverKey v)) := hperm.mem_iff.mp hmem_pair
  obtain ⟨v0, hv0, heq⟩ := List.mem_map.mp hmem2
  have hv0m : v0 = m := congrArg Prod.fst heq
  have hkm : semverKey m = k := by
    rw [← hv0m]
    exact congrArg Prod.snd heq
  rw [hv0m] at hv0
  refine ⟨hv0, ?_, ?_⟩
  · intro w hw
    have hwpair : (w, semverKey w) ∈
        ((changelogVersions cl).map clean_version_str).map
          (fun v => (v, semverKey v)) :=
      List.mem_map_of_mem _ hw
    have hwsorted : (w, semverKey w) ∈
        to_sorted_semantic ((changelogVersions cl).map clean_version_str) :=
      hperm.mem_iff.mpr hwpair
    have hch := chain'_sortBy (fun p q : String × (Nat × Nat × Nat) => semLe p.2 q.2)
      (fun p q => semLe_total p.2 q.2)
      (((changelogVersions cl).map clean_version_str).map fun v => (v, semverKey v))
    have hle := chain'_le_getLast (fun p q : String × (Nat × Nat × Nat) => semLe p.2 q.2)
      (fun p q r => semLe_trans p.2 q.2 r.2) (fun p => semLe_refl p.2)
      _ hch (m, k) h2 (w, semverKey w) hwsorted
    rw [hkm]
    exact hle
  · simp only [get_changelog, h1, Bool.false_eq_true, if_false, h2, h3]

/-- C4 witness: on a changelog with versions `v1.2.3` and `2.0` the maximum
is `2.0` and the synthesized URL names it. -/
theorem c4_witness :
    "2.0" ∈ (changelogVersions c4w_changelog).map clean_version_str ∧
    (∀ w ∈ (changelogVersions c4w_changelog).map clean_version_str,
      semLe (semverKey w) (semverKey "2.0") = true) ∧
    get_changelog c4w_changelog =
      some (("unreleased", unreleasedEntry "2.0") :: c4w_changelog) :=
  c4_synthesized_url_amended c4w_changelog (by decide) "2.0" (2, 0, 0) (by decide)
    "2.0" (by decide)

/-- C5 counterexample: a PR body can record the names `Black` and `black`,
whose lowercase forms coincide; the generated order is then not strict
under case-insensitive comparison. -/
theorem c5_counterexample :
    parse_pull_request_body c5_pr_body = [("Black", "2"), ("black", "3")] ∧
    sortBy strLowerLe (dictKeys [("Black", "2"), ("black", "3")]) =
      ["Black", "black"] ∧
    strLowerLt "Black" "black" = false := by
  decide

/-- C5 amended: the generated update lines are ordered non-strictly by
case-insensitive comparison of the dependency name, and strictly whenever
the lowercased names are pairwise distinct. -/
theorem c5_output_ordering_amended (d : List (String × String)) :
    List.Chain' (fun a b => strLowerLe a b = true) (sortBy strLowerLe (dictKeys d)) ∧
    (((dictKeys d).map pyLower).Nodup →
      List.Chain' (fun a b => strLowerLt a b = true)
        (sortBy strLowerLe (dictKeys d))) := by
  have htot : ∀ a b : String, strLowerLe a b = true ∨ strLowerLe b a = true :=
    fun a b => listLe_total _ _
  refine ⟨chain'_sortBy strLowerLe htot _, fun hn => ?_⟩
  apply chain'_lt_of_nodup _ (chain'_sortBy strLowerLe htot _)
  have hperm : List.Perm ((sortBy strLowerLe (dictKeys d)).map pyLower)
      ((dictKeys d).map pyLower) :=
    (sortBy_perm strLowerLe (dictKeys d)).map pyLower
  exact hperm.nodup_iff.mpr hn

/-- C5 witness: with the two distinct lowercased names `a` and `b-tool` the
generated order is strict. -/
theorem c5_witness :
    List.Chain' (fun a b => strLowerLe a b = true)
      (sortBy strLowerLe (dictKeys [("b-tool", "2.1"), ("a", "1")])) ∧
    List.Chain' (fun a b => strLowerLt a b = true)
      (sortBy strLowerLe (dictKeys [("b-tool", "2.1"), ("a", "1")])) :=
  ⟨(c5_output_ordering_amended [("b-tool", "2.1"), ("a", "1")]).1,
   (c5_output_ordering_amended [("b-tool", "2.1"), ("a", "1")]).2 (by decide)⟩

/-- C6: two PR bodies with the same lines between the start marker and the
end marker parse to the same dictionary, whatever stands before the start
marker (as long as it is not itself the start marker) or after the end
marker; in particular a well-formed update line outside the region
contributes nothing. -/
theorem c6_marker_region_determines_parse
    (b1 b2 : String) (pre1 pre2 mid post1 post2 : List String) (s1 s2 e1 e2 : String)
    (hs1 : pyStrip s1 = pr_body_marker_start) (hs2 : pyStrip s2 = pr_body_marker_start)
    (he1 : pyStrip e1 = pr_body_marker_end) (he2 : pyStrip e2 = pr_body_marker_end)
    (hp1 : ∀ l ∈ pre1, pyStrip l ≠ pr_body_marker_start)
    (hp2 : ∀ l ∈ pre2, pyStrip l ≠ pr_body_marker_start)
    (hb1 : splitlines b1 = pre1 ++ s1 :: mid ++ e1 :: post1)
    (hb2 : splitlines b2 = pre2 ++ s2 :: mid ++ e2 :: post2) :
    parse_pull_request_body b1 = parse_pull_request_body b2 := by
  unfold parse_pull_request_body
  rw [hb1, hb2]
  simp only [List.append_assoc, List.cons_append]
  rw [parsePRLines_skip_pre pre1 _ _ hp1, parsePRLines_skip_pre pre2 _ _ hp2]
  rw [show parsePRLines (s1 :: (mid ++ e1 :: post1)) true [] =
      parsePRLines (mid ++ e1 :: post1) false [] from by simp [parsePRLines, hs1]]
  rw [show parsePRLines (s2 :: (mid ++ e2 :: post2)) true [] =
      parsePRLines (mid ++ e2 :: post2) false [] from by simp [parsePRLines, hs2]]
  exact parsePRLines_active_eq mid [] e1 e2 post1 post2 he1 he2

/-- C6 witness: a stray well-formed update line before the start marker or
after the end marker does not change the parse. -/
theorem c6_witness : parse_pull_request_body c6_body_a = parse_pull_request_body c6_body_b :=
  c6_marker_region_determines_parse c6_body_a c6_body_b
    [c6_stray_line] [] [c6_mid_line] [] [c6_stray_line]
    pr_body_marker_start pr_body_marker_start pr_body_marker_end pr_body_marker_end
    (by decide) (by decide) (by decide) (by decide)
    (by decide) (by decide) (by decide) (by decide)

/-- C7: a version string not beginning with `v`/`V` is returned unchanged
by `clean_version_str`; one beginning with `v`/`V` loses exactly its first
character; cleaning an already-clean string is idempotent. -/
theorem c7_clean_version_spec (version : String) :
    (startsVorV version = false → clean_version_str version = version) ∧
    (startsVorV version = true →
      ∃ c, (c = 'v' ∨ c = 'V') ∧
        version.toList = c :: (clean_version_str version).toList) ∧
    (startsVorV version = false →
      clean_version_str (clean_version_str version) = clean_version_str version) := by
  refine ⟨fun h => ?_, fun h => ?_, fun h => ?_⟩
  · simp [clean_version_str, h]
  · rcases hl : version.toList with _ | ⟨c, rest⟩
    · unfold startsVorV strStartsChar at h
      rw [hl] at h
      simp at h
    · refine ⟨c, ?_, ?_⟩
      · unfold startsVorV strStartsChar at h
        rw [hl] at h
        simpa using h
      · unfold clean_version_str
        rw [if_pos h]
        unfold strTail
        rw [hl]
        rfl
  · simp [clean_version_str, h]

/-- C7 witness: the three parts at `1.2` and `v1.2`. -/
theorem c7_witness :
    clean_version_str "1.2" = "1.2" ∧
    (∃ c, (c = 'v' ∨ c = 'V') ∧
      "v1.2".toList = c :: (clean_version_str "v1.2").toList) ∧
    clean_version_str (clean_version_str "1.2") = clean_version_str "1.2" :=
  ⟨(c7_clean_version_spec "1.2").1 (by decide),
   (c7_clean_version_spec "v1.2").2.1 (by decide),
   (c7_clean_version_spec "1.2").2.2 (by decide)⟩

/-- C8: a changelog with no `unreleased` entry and no versioned entries
makes the loader fail (the `[-1]` indexing of the empty sorted list,
modelled as `none`) instead of returning a changelog structure. -/
theorem c8_no_versions_fails (cl : Changelog)
    (h1 : clHasKey cl "unreleased" = false)
    (h2 : changelogVersions cl = []) :
    get_changelog cl = none := by
  simp only [get_changelog, h1, Bool.false_eq_true, if_false, h2]
  rfl

/-- C8 witness: the empty changelog. -/
theorem c8_witness : get_changelog ([] : Changelog) = none :=
  c8_no_versions_fails [] (by decide) (by decide)

/-- C9: in both the changelog section parser and the PR body parser the
built mapping has pairwise distinct keys, and each name maps to the version
of the last recognized line recording it. -/
theorem c9_last_line_wins (lines : List String) (body : String) (name : String) :
    (dictKeys (parse_changelog_lines lines).2).Nodup ∧
    dictLookup (parse_changelog_lines lines).2 name =
      lastRecorded (lines.filterMap hook_update_match) name ∧
    (dictKeys (parse_pull_request_body body)).Nodup ∧
    dictLookup (parse_pull_request_body body) name =
      lastRecorded (prMatches (splitlines body) true) name := by
  refine ⟨?_, ?_, ?_, ?_⟩
  · rw [parse_changelog_lines, parse_changelog_lines_aux lines [] []]
    exact foldl_dictSet_nodup _ _ (by simp [dictKeys])
  · rw [parse_changelog_lines, parse_changelog_lines_aux lines [] [],
      foldl_dictSet_lookup]
    rw [show dictLookup ([] : List (String × String)) name = none from rfl, oor_none]
  · exact parsePRLines_nodup _ _ _ (by simp [dictKeys])
  · rw [parse_pull_request_body, parsePRLines_lookup]
    rw [show dictLookup ([] : List (String × String)) name = none from rfl, oor_none]

/-- C10: whenever an `unreleased` entry is synthesized, its compare URL is
built on the fixed repository `Takishima/flake8-secure-coding-standard`;
only the version segment before `...HEAD` (one of the changelog's version
strings) varies. -/
theorem c10_fixed_compare_repo (cl cl2 : Changelog)
    (h1 : clHasKey cl "unreleased" = false)
    (h2 : get_changelog cl = some cl2)
    (e : ChangelogEntry) (h3 : dictLookup cl2 "unreleased" = some e) :
    ∃ vn, vn ∈ changelogVersions cl ∧
      e.metadata.url =
        "https://github.com/Takishima/flake8-secure-coding-standard/compare/"
          ++ vn ++ "...HEAD" := by
  simp only [get_changelog, h1, Bool.false_eq_true, if_false] at h2
  split at h2
  · simp at h2
  · split at h2
    · simp at h2
    · next vn hf =>
      simp only [Option.some.injEq] at h2
      subst h2
      rw [show dictLookup (("unreleased", unreleasedEntry vn) :: cl) "unreleased" =
        some (unreleasedEntry vn) from by simp [dictLookup]] at h3
      have he : e = unreleasedEntry vn := (Option.some.inj h3).symm
      subst he
      exact ⟨vn, List.mem_of_find?_eq_some hf, rfl⟩

/-- C10 witness: the one-version changelog synthesizes a URL on the fixed
repository with `1.0.0` on the left. -/
theorem c10_witness :
    ∃ vn, vn ∈ changelogVersions c10_changelog ∧
      (unreleasedEntry "1.0.0").metadata.url =
        "https://github.com/Takishima/flake8-secure-coding-standard/compare/"
          ++ vn ++ "...HEAD" :=
  c10_fixed_compare_repo c10_changelog
    (("unreleased", unreleasedEntry "1.0.0") :: c10_changelog)
    (by decide) (by decide) (unreleasedEntry "1.0.0") (by decide)

end UpdateChangelog
